import Mathlib

/-!
Verification of the HeistCrypt (HadesCrypt) cryptographic storage engine.

This file gives a shallow embedding, over `List Nat` byte strings, of:
* the container format written by `EncryptFileWithMode` and read by
  `DecryptFile` (src/internal/cryptoengine/crypto.go),
* the keyfile combination `KeyfileManager.GetCombinedKey`
  (src/internal/config/config.go), together with a concrete SHA-256,
* the auto-decrypt pipeline `AppState.decryptFileAuto` (src/main.go).

Bytes are natural numbers below 256; machine words are `Nat` reduced with
explicit `% 2^w` where the Go code uses fixed-width integers.  External
library primitives (AES-256-GCM, ChaCha20-Poly1305 from Go's crypto
packages, Argon2id) are modelled as abstract functions packaged in a
`CipherKit`, constrained only by the functional contract those libraries
guarantee (sealing appends a 16-byte tag; opening inverts sealing;
opening only succeeds on ciphertexts at least 16 bytes longer than the
returned plaintext).
-/

/-! ### Byte-level utilities -/

/-- Big-endian 4-byte encoding of a machine word, as `binary.BigEndian.PutUint32`
writes it.  Each byte is reduced `% 256`, so the encoding agrees with the Go
encoding of `x % 2^32` for every `x`. -/
def be32 (x : Nat) : List Nat :=
  [x / 2 ^ 24 % 256, x / 2 ^ 16 % 256, x / 2 ^ 8 % 256, x % 256]

/-- Big-endian 8-byte encoding, as `binary.BigEndian.PutUint64` writes it. -/
def be64 (x : Nat) : List Nat :=
  [x / 2 ^ 56 % 256, x / 2 ^ 48 % 256, x / 2 ^ 40 % 256, x / 2 ^ 32 % 256,
   x / 2 ^ 24 % 256, x / 2 ^ 16 % 256, x / 2 ^ 8 % 256, x % 256]

/-- Big-endian decoding of a byte string (`binary.BigEndian.Uint32`/`Uint64`). -/
def fromBE (bs : List Nat) : Nat :=
  bs.foldl (fun a b => 256 * a + b) 0

theorem be32_length (x : Nat) : (be32 x).length = 4 := rfl

theorem be64_length (x : Nat) : (be64 x).length = 8 := rfl

theorem fromBE_be32 (x : Nat) : fromBE (be32 x) = x % 2 ^ 32 := by
  simp only [be32, fromBE, List.foldl]
  omega

set_option maxHeartbeats 1000000 in
theorem fromBE_be64 (x : Nat) : fromBE (be64 x) = x % 2 ^ 64 := by
  simp only [be64, fromBE, List.foldl]
  omega

theorem be32_mod (x : Nat) : be32 (x % 2 ^ 32) = be32 x := by
  simp only [be32, List.cons.injEq, and_true]
  omega

/-- Injectivity of `be32` on words below `2^32`. -/
theorem be32_inj {x y : Nat} (hx : x < 2 ^ 32) (hy : y < 2 ^ 32)
    (h : be32 x = be32 y) : x = y := by
  simp only [be32, List.cons.injEq, and_true] at h
  omega

/-! ### SHA-256 (FIPS 180-4), executable over `Nat` words

Used concretely by the keyfile-combination and sidecar-hash claims.  All
word arithmetic is `Nat` with explicit `% 2^32`; bitwise operations are
implemented by fuel-bounded binary recursion so that the kernel can
evaluate them. -/

/-- Truncate to a 32-bit word. -/
def w32 (x : Nat) : Nat := x % 4294967296

/-- Bitwise combine of the low `fuel` bits of `a` and `b`, where `f` combines
single bits (each argument already reduced `% 2`). -/
def bitOp (f : Nat → Nat → Nat) : Nat → Nat → Nat → Nat
  | 0, _, _ => 0
  | fuel + 1, a, b => f (a % 2) (b % 2) + 2 * bitOp f fuel (a / 2) (b / 2)

/-- Bitwise AND on 32-bit words. -/
def andW (a b : Nat) : Nat := bitOp (fun x y => x * y) 32 a b

/-- Bitwise XOR on 32-bit words. -/
def xorW (a b : Nat) : Nat := bitOp (fun x y => (x + y) % 2) 32 a b

/-- Bitwise NOT on 32-bit words (complement within a word). -/
def notW (a : Nat) : Nat := 4294967295 - w32 a

/-- Rotate a 32-bit word right by `n` (0 < n < 32). -/
def rotr32 (x n : Nat) : Nat := w32 (x / 2 ^ n + x * 2 ^ (32 - n))

/-- Logical right shift. -/
def shr32 (x n : Nat) : Nat := x / 2 ^ n

def bigSig0 (x : Nat) : Nat := xorW (xorW (rotr32 x 2) (rotr32 x 13)) (rotr32 x 22)
def bigSig1 (x : Nat) : Nat := xorW (xorW (rotr32 x 6) (rotr32 x 11)) (rotr32 x 25)
def smallSig0 (x : Nat) : Nat := xorW (xorW (rotr32 x 7) (rotr32 x 18)) (shr32 x 3)
def smallSig1 (x : Nat) : Nat := xorW (xorW (rotr32 x 17) (rotr32 x 19)) (shr32 x 10)
def chW (x y z : Nat) : Nat := xorW (andW x y) (andW (notW x) z)
def majW (x y z : Nat) : Nat := xorW (xorW (andW x y) (andW x z)) (andW y z)

/-- SHA-256 round constants. -/
def sha256K : List Nat :=
  [
   1116352408, 1899447441, 3049323471, 3921009573, 961987163,
   1508970993, 2453635748, 2870763221, 3624381080, 310598401,
   607225278, 1426881987, 1925078388, 2162078206, 2614888103,
   3248222580, 3835390401, 4022224774, 264347078, 604807628,
   770255983, 1249150122, 1555081692, 1996064986, 2554220882,
   2821834349, 2952996808, 3210313671, 3336571891, 3584528711,
   113926993, 338241895, 666307205, 773529912, 1294757372,
   1396182291, 1695183700, 1986661051, 2177026350, 2456956037,
   2730485921, 2820302411, 3259730800, 3345764771, 3516065817,
   3600352804, 4094571909, 275423344, 430227734, 506948616,
   659060556, 883997877, 958139571, 1322822218, 1537002063,
   1747873779, 1955562222, 2024104815, 2227730452, 2361852424,
   2428436474, 2756734187, 3204031479, 3329325298]

/-- SHA-256 initial hash value. -/
def sha256H0 : List Nat :=
  [
   1779033703, 3144134277, 1013904242, 2773480762, 1359893119,
   2600822924, 528734635, 1541459225]

/-- Group a byte string into 4-byte big-endian words. -/
def wordsOfBytes : List Nat → List Nat
  | b0 :: b1 :: b2 :: b3 :: rest =>
      (((b0 * 256 + b1) * 256 + b2) * 256 + b3) :: wordsOfBytes rest
  | _ => []

/-- Extend the 16 message words to 64 schedule words. -/
def sha256Extend : Nat → List Nat → List Nat
  | 0, ws => ws
  | fuel + 1, ws =>
      let n := ws.length
      sha256Extend fuel (ws ++
        [w32 (smallSig1 (ws.getD (n - 2) 0) + ws.getD (n - 7) 0 +
              smallSig0 (ws.getD (n - 15) 0) + ws.getD (n - 16) 0)])

/-- One SHA-256 round on the 8-word working state. -/
def sha256Round (st : List Nat) (kw : Nat × Nat) : List Nat :=
  match st with
  | [a, b, c, d, e, f, g, h] =>
      let t1 := w32 (h + bigSig1 e + chW e f g + kw.1 + kw.2)
      let t2 := w32 (bigSig0 a + majW a b c)
      [w32 (t1 + t2), a, b, c, w32 (d + t1), e, f, g]
  | other => other

/-- Process one 64-byte block, updating the 8-word hash state. -/
def sha256Block (st : List Nat) (block : List Nat) : List Nat :=
  let ws := sha256Extend 48 (wordsOfBytes block)
  let fin := (sha256K.zip ws).foldl sha256Round st
  (st.zip fin).map fun p => w32 (p.1 + p.2)

/-- Split a padded message into 64-byte blocks (fuel-bounded for kernel
evaluation; `fuel ≥ bs.length` suffices). -/
def blocksOf : Nat → List Nat → List (List Nat)
  | 0, _ => []
  | fuel + 1, bs => if bs.isEmpty then [] else bs.take 64 :: blocksOf fuel (bs.drop 64)

/-- SHA-256 padding: append `128`, zeros to 56 mod 64, and the 8-byte
big-endian bit length. -/
def sha256Pad (msg : List Nat) : List Nat :=
  msg ++ [128] ++ List.replicate ((56 + 64 - (msg.length + 1) % 64) % 64) 0 ++
    be64 (8 * msg.length)

/-- SHA-256 digest (32 bytes) of a byte string. -/
def sha256 (msg : List Nat) : List Nat :=
  let padded := sha256Pad msg
  ((blocksOf padded.length padded).foldl sha256Block sha256H0).flatMap be32

set_option maxRecDepth 100000 in
/-- FIPS 180-4 test vector: the digest of the empty message. -/
theorem sha256_empty_vector :
    sha256 [] =
      [227, 176, 196, 66, 152, 252, 28, 20, 154, 251, 244, 200,
       153, 111, 185, 36, 39, 174, 65, 228, 100, 155, 147, 76,
       164, 149, 153, 27, 120, 82, 184, 85] := by decide

set_option maxRecDepth 100000 in
/-- FIPS 180-4 test vector: the digest of `"abc"`. -/
theorem sha256_abc_vector :
    sha256 [97, 98, 99] =
      [186, 120, 22, 191, 143, 1, 207, 234, 65, 65, 64, 222,
       93, 174, 34, 35, 176, 3, 97, 163, 150, 23, 122, 156,
       180, 16, 255, 97, 242, 0, 21, 173] := by decide

/-! ### Abstract AEAD primitives and key derivation

`EncryptFileWithMode`/`DecryptFile` call into Go's `crypto/cipher` (AES-256-GCM),
`golang.org/x/crypto/chacha20poly1305` and `golang.org/x/crypto/argon2`.  These
are external libraries, modelled abstractly: an `AEAD` value packages the
`Seal`/`Open` methods of a keyed cipher, and a `CipherKit` packages the cipher
constructors and the two Argon2id derivations the engine performs.  `KitSound`
states the functional contract Go's AEAD implementations guarantee (both GCM
and ChaCha20-Poly1305 have `NonceSize() = 12` and `Overhead() = 16`). -/

/-- A keyed AEAD: `Seal nonce plaintext` and `Open nonce ciphertext`. -/
structure AEAD where
  Seal : List Nat → List Nat → List Nat
  Open : List Nat → List Nat → Option (List Nat)

/-- The external cryptographic collaborators of the engine.
`kdf pw salt` models `argon2.IDKey(pw, salt, 1, 64*1024, 4, 32)`;
`kdf2 pw salt` models the cascade second derivation
`argon2.IDKey(pw, salt, 2, 64*1024, 4, 32)` (time cost doubled);
`pqSeal` abstracts the post-quantum chunk encryption (random nonce
prepended to the ciphertext) of the non-core `postquantum` module. -/
structure CipherKit where
  mkAES : List Nat → AEAD
  mkChaCha : List Nat → AEAD
  kdf : List Nat → List Nat → List Nat
  kdf2 : List Nat → List Nat → List Nat
  pqSeal : List Nat → List Nat → List Nat

/-- Functional contract of the Go AEAD implementations: sealing appends a
16-byte tag, opening inverts sealing, and opening succeeds only on
ciphertexts exactly 16 bytes longer than the plaintext they decrypt to. -/
def KitSound (kit : CipherKit) : Prop :=
  (∀ k n pt, ((kit.mkAES k).Seal n pt).length = pt.length + 16) ∧
  (∀ k n pt, (kit.mkAES k).Open n ((kit.mkAES k).Seal n pt) = some pt) ∧
  (∀ k n ct pt, (kit.mkAES k).Open n ct = some pt → ct.length = pt.length + 16) ∧
  (∀ k n pt, ((kit.mkChaCha k).Seal n pt).length = pt.length + 16) ∧
  (∀ k n pt, (kit.mkChaCha k).Open n ((kit.mkChaCha k).Seal n pt) = some pt) ∧
  (∀ k n ct pt, (kit.mkChaCha k).Open n ct = some pt → ct.length = pt.length + 16)

/-! ### The container format (src/internal/cryptoengine/crypto.go) -/

/-- The `EncryptionMode` constants (`iota` starting at 0). -/
inductive EncryptionMode
  | aes256gcm | chacha20 | paranoid | kyber768 | dilithium3 | sphincsPlus
  deriving DecidableEq

/-- The byte value of each mode, as written into the header (`byte(mode)`). -/
def modeByte : EncryptionMode → Nat
  | .aes256gcm => 0
  | .chacha20 => 1
  | .paranoid => 2
  | .kyber768 => 3
  | .dilithium3 => 4
  | .sphincsPlus => 5

/-- The magic `fileMagic = "HAD1"` as bytes. -/
def magicBytes : List Nat := [72, 65, 68, 49]

/-- The literal `"paranoid"` as bytes — appended to the password for the cascade
second-key derivation. -/
def paranoidBytes : List Nat := [112, 97, 114, 97, 110, 111, 105, 100]

/-- The constant `chunkSize = 1 << 20`: plaintext bytes per chunk. -/
def chunkSizeConst : Nat := 1048576

/-- The 42-byte header written by `EncryptFileWithMode` (crypto.go lines
171–197): magic, version 1, mode byte, 16-byte salt, 8-byte nonce prefix,
big-endian chunk size, big-endian original size. -/
def headerBytes (m : EncryptionMode) (salt pfx : List Nat) (totalSize : Nat) : List Nat :=
  magicBytes ++ [1] ++ [modeByte m] ++ salt ++ pfx ++ be32 chunkSizeConst ++ be64 totalSize

/-- Nonce for counter value `ctr`: the 8-byte nonce prefix followed by the
big-endian 4 bytes `binary.BigEndian.PutUint32` writes for the 32-bit
counter.  Both the encrypt loop and the decrypt loop build their nonces
this way. -/
def nonceFor (pfx : List Nat) (ctr : Nat) : List Nat := pfx ++ be32 ctr

/-- Split a byte string into chunks of `cs` bytes, the last one possibly
shorter (fuel-bounded; `fuel ≥ bs.length` suffices when `0 < cs`). -/
def chunksOfAux (cs : Nat) : Nat → List Nat → List (List Nat)
  | 0, _ => []
  | fuel + 1, bs => if bs.isEmpty then [] else bs.take cs :: chunksOfAux cs fuel (bs.drop cs)

/-- The chunk decomposition of a plaintext. -/
def chunksOf (cs : Nat) (bs : List Nat) : List (List Nat) :=
  chunksOfAux cs bs.length bs

/-- The encrypt chunk loop (crypto.go lines 199–275), for the AEAD modes:
read up to `chunkSize` plaintext bytes, seal with `nonceFor pfx ctr`, emit
the frame, increment the 32-bit counter.  Returns the list of emitted
frames.  `fuel ≥ bs.length` suffices. -/
def encLoop (sl : List Nat → List Nat → List Nat) (pfx : List Nat) :
    Nat → Nat → List Nat → List (List Nat)
  | 0, _, _ => []
  | fuel + 1, ctr, bs =>
      if bs.isEmpty then []
      else sl (nonceFor pfx ctr) (bs.take chunkSizeConst) ::
        encLoop sl pfx fuel ((ctr + 1) % 2 ^ 32) (bs.drop chunkSizeConst)

/-- The per-chunk seal operation of each AEAD mode.  For `paranoid`, the
inner AES-GCM output is sealed again by ChaCha20-Poly1305; the outer nonce
buffer is `NonceSize() = 12` bytes filled from the inner 12-byte nonce, so
it equals the inner nonce. -/
def sealForMode (kit : CipherKit) (pw salt : List Nat) :
    EncryptionMode → (List Nat → List Nat → List Nat)
  | .aes256gcm => (kit.mkAES (kit.kdf pw salt)).Seal
  | .chacha20 => (kit.mkChaCha (kit.kdf pw salt)).Seal
  | .paranoid => fun n pt =>
      (kit.mkChaCha (kit.kdf2 (pw ++ paranoidBytes) salt)).Seal n
        ((kit.mkAES (kit.kdf pw salt)).Seal n pt)
  | _ => fun _ pt => pt

/-- Model of `EncryptFileWithMode` (crypto.go lines 84–278): the container bytes
written for plaintext `pt`, given the random `salt` (16 bytes) and nonce
prefix `pfx` (8 bytes) drawn for this container.  For the post-quantum
modes the full chunks go through the `postquantum` cipher with a random
prepended nonce (abstracted by `kit.pqSeal`); a final partial chunk makes
the Go code call `aead.Seal` on a `nil` AEAD — a panic, modelled as
`none`. -/
def encryptFileWithMode (kit : CipherKit) (m : EncryptionMode)
    (pw salt pfx pt : List Nat) : Option (List Nat) :=
  let hdr := headerBytes m salt pfx pt.length
  match m with
  | .aes256gcm | .chacha20 | .paranoid =>
      some (hdr ++ (encLoop (sealForMode kit pw salt m) pfx pt.length 0 pt).flatten)
  | _ =>
      if pt.length % chunkSizeConst = 0 then
        some (hdr ++ ((chunksOf chunkSizeConst pt).map
          (kit.pqSeal (kit.kdf pw salt))).flatten)
      else none

/-- The AEAD overhead per chunk frame: 16 bytes for the single-layer
modes, 32 for the cascade. -/
def modeOverhead : EncryptionMode → Nat
  | .paranoid => 32
  | _ => 16

/-! ### DecryptFile (crypto.go lines 283–491) -/

/-- The error classes `DecryptFile` can return: `ioErr` for any
`io.ReadFull` failure, `badMagic` for `"invalid file format"`, `badVersion`
for `"unsupported version"`, `badMode` for `"unsupported encryption mode"`,
and `authFail` for an AEAD `Open` failure. -/
inductive DecErr
  | ioErr | badMagic | badVersion | badMode | authFail
  deriving DecidableEq

/-- Outcome of `DecryptFile`: the plaintext written to the output file, an
error return, or a runtime panic (`crash`). -/
inductive DecResult
  | ok (out : List Nat)
  | err (e : DecErr)
  | crash
  deriving DecidableEq

/-- Model of `io.ReadFull`: consume exactly `n` bytes from the remaining input, or
fail when fewer are available. -/
def readN (n : Nat) (s : List Nat) : Option (List Nat × List Nat) :=
  if n ≤ s.length then some (s.take n, s.drop n) else none

/-- The per-chunk open operation for each supported mode byte (the decrypt
`switch` handles only 0, 1, 2; the paranoid branch opens the outer
ChaCha20-Poly1305 layer, then the inner AES-GCM layer, with the same
12-byte nonce). -/
def openForModeByte (kit : CipherKit) (pw salt : List Nat) :
    Nat → Option (List Nat → List Nat → Option (List Nat))
  | 0 => some (kit.mkAES (kit.kdf pw salt)).Open
  | 1 => some (kit.mkChaCha (kit.kdf pw salt)).Open
  | 2 => some fun n ct =>
      match (kit.mkChaCha (kit.kdf2 (pw ++ paranoidBytes) salt)).Open n ct with
      | none => none
      | some im => (kit.mkAES (kit.kdf pw salt)).Open n im
  | _ => none

/-- The full-chunk decrypt loop (crypto.go lines 412–450): `k` iterations,
each reading `cs + 16` ciphertext bytes (`readCipher(chunkSize)` adds a
single `gcmOverhead` regardless of mode) and opening them with
`nonceFor pfx ctr`.  Returns the concatenated plaintext, the remaining
input and the final counter value. -/
def decFull (opn : List Nat → List Nat → Option (List Nat)) (pfx : List Nat) (cs : Nat) :
    Nat → Nat → List Nat → Except DecErr (List Nat × List Nat × Nat)
  | 0, ctr, s => .ok ([], s, ctr)
  | k + 1, ctr, s =>
      match readN (cs + 16) s with
      | none => .error .ioErr
      | some (frame, s') =>
          match opn (nonceFor pfx ctr) frame with
          | none => .error .authFail
          | some plain =>
              match decFull opn pfx cs k ((ctr + 1) % 2 ^ 32) s' with
              | .error e => .error e
              | .ok (rest, s'', ctrF) => .ok (plain ++ rest, s'', ctrF)

/-- The body of `DecryptFile` after the header is parsed and the AEAD is
built: `totalSize / chunkSize` full chunks, then one shorter chunk of
`totalSize % chunkSize` bytes if nonzero.  Nothing is read past the last
chunk. -/
def decTail (opn : List Nat → List Nat → Option (List Nat)) (pfx : List Nat)
    (cs ts ctr0 : Nat) (s : List Nat) : Except DecErr (List Nat) :=
  match decFull opn pfx cs (ts / cs) ctr0 s with
  | .error e => .error e
  | .ok (pt, s', ctr) =>
      if ts % cs > 0 then
        match readN (ts % cs + 16) s' with
        | none => .error .ioErr
        | some (frame, _) =>
            match opn (nonceFor pfx ctr) frame with
            | none => .error .authFail
            | some plain => .ok (pt ++ plain)
      else .ok pt

/-- Header parsing of `DecryptFile` (crypto.go lines 290–333): validate
magic and version, read mode byte, salt, nonce prefix, chunk size and
total size.  Returns the parsed fields and the remaining input. -/
def parseHeader (s0 : List Nat) :
    Except DecErr (Nat × List Nat × List Nat × Nat × Nat × List Nat) :=
  match readN 4 s0 with
  | none => .error .ioErr
  | some (magic, s1) =>
    if magic ≠ magicBytes then .error .badMagic else
    match readN 1 s1 with
    | none => .error .ioErr
    | some (ver, s2) =>
      if ver ≠ [1] then .error .badVersion else
      match readN 1 s2 with
      | none => .error .ioErr
      | some (mb, s3) =>
        match readN 16 s3 with
        | none => .error .ioErr
        | some (salt, s4) =>
          match readN 8 s4 with
          | none => .error .ioErr
          | some (pfx, s5) =>
            match readN 4 s5 with
            | none => .error .ioErr
            | some (csB, s6) =>
              match readN 8 s6 with
              | none => .error .ioErr
              | some (tsB, s7) =>
                .ok (mb.headD 0, salt, pfx, fromBE csB, fromBE tsB, s7)

/-- Model of `DecryptFile` (crypto.go lines 283–491) on the container bytes `s0`:
parse and validate the header, dispatch on the mode byte, then decrypt the
chunk sequence.  The division `totalSize / chunkSize` at line 389 is
unguarded in the source: a header whose chunk-size field is 0 makes the Go
program panic with a division-by-zero runtime error, modelled as
`.crash`. -/
def decryptFile (kit : CipherKit) (pw s0 : List Nat) : DecResult :=
  match parseHeader s0 with
  | .error e => .err e
  | .ok (mb, salt, pfx, cs, ts, s7) =>
    match openForModeByte kit pw salt mb with
    | none => .err .badMode
    | some opn =>
      if cs = 0 then .crash
      else
        match decTail opn pfx cs ts 0 s7 with
        | .error e => .err e
        | .ok pt => .ok pt

/-! ### Keyfile combination (src/internal/config/config.go lines 287–304) -/

/-- Model of `KeyfileManager`: the ordered 32-byte SHA-256 digests of the loaded
keyfiles, plus the `RequireOrder` flag. -/
structure KeyfileManager where
  keyfiles : List (List Nat)
  requireOrder : Bool

/-- The byte stream `GetCombinedKey` feeds to its SHA-256 hasher after the
password: each digest in list order, each followed by its position byte
`byte(i)` when `RequireOrder` is set. -/
def combineWrites (ro : Bool) : Nat → List (List Nat) → List Nat
  | _, [] => []
  | i, d :: ds => d ++ (if ro then [i % 256] else []) ++ combineWrites ro (i + 1) ds

/-- Model of `KeyfileManager.GetCombinedKey`: SHA-256 over the password followed by
the digest stream. -/
def getCombinedKey (km : KeyfileManager) (pw : List Nat) : List Nat :=
  sha256 (pw ++ combineWrites km.requireOrder 0 km.keyfiles)

/-- The spec's description of the compound-secret preimage, written from
its words (§3: "the SHA-256 of: password bytes, then each keyfile digest
in order; if `require_order` is true, each digest is followed by its
position byte"), for comparison with the code's `combineWrites`. -/
def specCompoundInput (pw : List Nat) (digests : List (List Nat)) (ro : Bool) : List Nat :=
  pw ++ (digests.enum.map fun p => p.2 ++ if ro then [p.1 % 256] else []).flatten

/-! ### The auto-decrypt pipeline (src/main.go, `AppState.decryptFileAuto`)

The pipeline decrypts to a temporary file, tests it with
`archiver.IsArchive` (a gzip + tar heuristic over the decompressed stream,
abstracted as a boolean input), optionally verifies the sidecar
`archive_sha256` value, and extracts or renames.  `metaHash` is the
hex-digest value the crude sidecar parser extracts, `none` when no sidecar
file exists or no `archive_sha256` line is found. -/

/-- External facts the pipeline consults: the archive heuristic on the
decrypted bytes, the parsed sidecar hash, and whether `ExtractTarGz`
succeeds. -/
structure AutoEnv where
  isArch : Bool
  metaHash : Option (List Nat)
  extractOk : Bool

/-- Pipeline error classes: decryption failure (any `DecryptFile` error),
`HashMismatch`, extraction failure, or a propagated decryption panic. -/
inductive AutoErr
  | decFailed | hashMismatch | extractFailed | decCrash
  deriving DecidableEq

/-- Pipeline outcome: overall result, whether the archive was extracted,
and whether the sidecar file was removed. -/
structure AutoOut where
  res : Option AutoErr
  extracted : Bool
  sidecarRemoved : Bool
  deriving DecidableEq

/-- One lowercase hex digit, as `hex.EncodeToString` emits. -/
def hexDigit (d : Nat) : Nat := if d < 10 then 48 + d else 87 + d

/-- Lowercase hex encoding of a byte string. -/
def hexChars (bs : List Nat) : List Nat :=
  bs.flatMap fun b => [hexDigit (b / 16 % 16), hexDigit (b % 16)]

/-- ASCII lowercasing; models `strings.EqualFold` on the ASCII hex data
compared here. -/
def asciiLower (c : Nat) : Nat := if 65 ≤ c ∧ c ≤ 90 then c + 32 else c

/-- Case-insensitive ASCII comparison (`strings.EqualFold` on hex
strings). -/
def asciiEqFold (a b : List Nat) : Bool := a.map asciiLower == b.map asciiLower

/-- Model of `AppState.decryptFileAuto` (main.go lines 1038–1116): decrypt, then —
when the result looks like an archive — verify the sidecar hash if one
was parsed, extract, and only then remove the sidecar.  A non-archive
result is renamed into place. -/
def decryptFileAuto (kit : CipherKit) (pw container : List Nat) (env : AutoEnv) : AutoOut :=
  match decryptFile kit pw container with
  | .crash => ⟨some .decCrash, false, false⟩
  | .err _ => ⟨some .decFailed, false, false⟩
  | .ok tmp =>
      if env.isArch then
        match env.metaHash with
        | some expected =>
            if asciiEqFold (hexChars (sha256 tmp)) expected then
              if env.extractOk then ⟨none, true, true⟩
              else ⟨some .extractFailed, false, false⟩
            else ⟨some .hashMismatch, false, false⟩
        | none =>
            if env.extractOk then ⟨none, true, true⟩
            else ⟨some .extractFailed, false, false⟩
      else ⟨none, false, false⟩

/-! ### A concrete cipher kit

A computable instance of the AEAD contract, used to evaluate the model at
concrete inputs (the contract constrains only the functional shape shared
by the real ciphers; no cryptographic strength is claimed or needed). -/

/-- A 16-byte checksum tag over key, nonce and message. -/
def demoTag (t : Nat) (k n pt : List Nat) : List Nat :=
  List.replicate 16 ((t + k.sum + n.sum + pt.sum) % 256)

/-- A keyed demo AEAD: append the tag on seal, check and strip it on
open. -/
def demoAEAD (t : Nat) (k : List Nat) : AEAD where
  Seal := fun n pt => pt ++ demoTag t k n pt
  Open := fun n ct =>
    if 16 ≤ ct.length ∧ ct.drop (ct.length - 16) = demoTag t k n (ct.take (ct.length - 16))
    then some (ct.take (ct.length - 16)) else none

/-- The demo kit used for concrete evaluation. -/
def demoKit : CipherKit where
  mkAES := demoAEAD 1
  mkChaCha := demoAEAD 2
  kdf := fun pw salt => (pw ++ salt).take 32
  kdf2 := fun pw salt => (salt ++ pw).take 32
  pqSeal := fun k c => k.take 1 ++ c

theorem demoAEAD_sound (t : Nat) :
    (∀ k n pt, ((demoAEAD t k).Seal n pt).length = pt.length + 16) ∧
    (∀ k n pt, (demoAEAD t k).Open n ((demoAEAD t k).Seal n pt) = some pt) ∧
    (∀ k n ct pt, (demoAEAD t k).Open n ct = some pt → ct.length = pt.length + 16) := by
  refine ⟨fun k n pt => by simp [demoAEAD, demoTag], fun k n pt => ?_, fun k n ct pt h => ?_⟩
  · have hlen : (pt ++ demoTag t k n pt).length = pt.length + 16 := by
      simp [demoTag]
    have htake : (pt ++ demoTag t k n pt).take (pt.length) = pt :=
      List.take_left' rfl
    have hdrop : (pt ++ demoTag t k n pt).drop (pt.length) = demoTag t k n pt :=
      List.drop_left' rfl
    simp only [demoAEAD, hlen, Nat.add_sub_cancel, htake, hdrop]
    simp
  · simp only [demoAEAD] at h
    split at h
    · rename_i hc
      have := congrArg (fun o => (Option.getD o []).length) h
      simp at this
      omega
    · exact absurd h (by simp)

theorem demoKit_sound : KitSound demoKit :=
  ⟨(demoAEAD_sound 1).1, (demoAEAD_sound 1).2.1, (demoAEAD_sound 1).2.2,
   (demoAEAD_sound 2).1, (demoAEAD_sound 2).2.1, (demoAEAD_sound 2).2.2⟩

/-! ### Basic lemmas about the model -/

theorem readN_exact {n : Nat} {xs ys : List Nat} (h : xs.length = n) :
    readN n (xs ++ ys) = some (xs, ys) := by
  subst h
  simp [readN, List.take_left, List.drop_left]

theorem chunksOfAux_nil (cs fuel : Nat) : chunksOfAux cs fuel [] = [] := by
  cases fuel <;> simp [chunksOfAux]

theorem chunksOfAux_congr (cs : Nat) (hcs : 0 < cs) :
    ∀ f1 f2 bs, bs.length ≤ f1 → bs.length ≤ f2 →
      chunksOfAux cs f1 bs = chunksOfAux cs f2 bs := by
  intro f1
  induction f1 with
  | zero =>
      intro f2 bs h1 _
      have : bs = [] := List.eq_nil_of_length_eq_zero (Nat.le_zero.mp h1)
      subst this
      simp [chunksOfAux_nil]
  | succ f ih =>
      intro f2 bs h1 h2
      rcases bs with _ | ⟨b, bs'⟩
      · simp [chunksOfAux_nil]
      · rcases f2 with _ | f2'
        · simp at h2
        · simp only [chunksOfAux, List.isEmpty_cons, Bool.false_eq_true, if_false]
          congr 1
          exact ih f2' _ (by simp at h1 ⊢; omega) (by simp at h2 ⊢; omega)

theorem chunksOf_eq (cs : Nat) (hcs : 0 < cs) (bs : List Nat) :
    chunksOf cs bs =
      if bs.isEmpty then [] else bs.take cs :: chunksOf cs (bs.drop cs) := by
  rcases bs with _ | ⟨b, bs'⟩
  · simp [chunksOf, chunksOfAux_nil]
  · simp only [chunksOf, List.length_cons, chunksOfAux, List.isEmpty_cons,
      Bool.false_eq_true, if_false]
    congr 1
    exact chunksOfAux_congr cs hcs _ _ _ (by simp; omega) (by simp)

/-- Ceiling-division step: one chunk of size `cs` taken off the front. -/
theorem ceilDiv_step (cs len : Nat) (hcs : 0 < cs) (hlen : 0 < len) :
    (len + cs - 1) / cs = (len - cs + cs - 1) / cs + 1 := by
  rcases Nat.le_total len cs with h | h
  · have h0 : len - cs = 0 := by omega
    have h1 : len + cs - 1 = (len - 1) + cs := by omega
    rw [h0, h1, Nat.add_div_right _ hcs, Nat.div_eq_of_lt (by omega),
        Nat.div_eq_of_lt (by omega)]
  · have h1 : len + cs - 1 = (len - cs + cs - 1) + cs := by omega
    rw [h1, Nat.add_div_right _ hcs]

theorem chunksOfAux_length (cs : Nat) (hcs : 0 < cs) :
    ∀ fuel bs, bs.length ≤ fuel →
      (chunksOfAux cs fuel bs).length = (bs.length + cs - 1) / cs := by
  intro fuel
  induction fuel with
  | zero =>
      intro bs h1
      have : bs = [] := List.eq_nil_of_length_eq_zero (Nat.le_zero.mp h1)
      subst this
      simp [chunksOfAux_nil, Nat.div_eq_of_lt (by omega : cs - 1 < cs)]
  | succ f ih =>
      intro bs h1
      rcases bs with _ | ⟨b, bs'⟩
      · simp [chunksOfAux_nil, Nat.div_eq_of_lt (by omega : cs - 1 < cs)]
      · simp only [chunksOfAux, List.isEmpty_cons, Bool.false_eq_true, if_false]
        rw [List.length_cons, ih _ (by simp at h1 ⊢; omega), List.length_drop]
        exact (ceilDiv_step cs (b :: bs').length hcs (by simp)).symm

theorem chunksOf_length (cs : Nat) (hcs : 0 < cs) (bs : List Nat) :
    (chunksOf cs bs).length = (bs.length + cs - 1) / cs :=
  chunksOfAux_length cs hcs _ bs le_rfl

theorem chunkSizeConst_pos : 0 < chunkSizeConst := by decide

/-- Frame `i` of the encrypt loop seals chunk `i` with the nonce built from
the wrapped 32-bit counter `(ctr + i) % 2^32`. -/
theorem encLoop_getElem (sl : List Nat → List Nat → List Nat) (pfx : List Nat) :
    ∀ fuel bs ctr i, bs.length ≤ fuel → ctr < 2 ^ 32 →
      (encLoop sl pfx fuel ctr bs)[i]? =
        ((chunksOf chunkSizeConst bs)[i]?).map
          (fun c => sl (nonceFor pfx ((ctr + i) % 2 ^ 32)) c) := by
  intro fuel
  induction fuel with
  | zero =>
      intro bs ctr i h1 _
      have : bs = [] := List.eq_nil_of_length_eq_zero (Nat.le_zero.mp h1)
      subst this
      simp [encLoop, chunksOf, chunksOfAux_nil]
  | succ f ih =>
      intro bs ctr i h1 hctr
      rcases bs with _ | ⟨b, bs'⟩
      · simp [encLoop, chunksOf, chunksOfAux_nil]
      · rw [chunksOf_eq _ chunkSizeConst_pos]
        simp only [encLoop, List.isEmpty_cons, Bool.false_eq_true, if_false]
        rcases i with _ | i'
        · simp only [List.getElem?_cons_zero, Option.map_some']
          have h0 : (ctr + 0) % 2 ^ 32 = ctr := by omega
          rw [h0]
        · simp only [List.getElem?_cons_succ]
          have hctr' : (ctr + 1) % 2 ^ 32 < 2 ^ 32 := Nat.mod_lt _ (by omega)
          rw [ih _ _ i'
            (by have := chunkSizeConst_pos; simp at h1 ⊢; omega) hctr']
          have harith : ((ctr + 1) % 2 ^ 32 + i') % 2 ^ 32 = (ctr + (i' + 1)) % 2 ^ 32 := by
            omega
          rw [harith]

/-- Total body length emitted by the encrypt loop, for a seal operation of
constant overhead `ov` per chunk. -/
theorem encLoop_flatten_length (sl : List Nat → List Nat → List Nat) (pfx : List Nat)
    (ov : Nat) (hov : ∀ n p, (sl n p).length = p.length + ov) :
    ∀ fuel bs ctr, bs.length ≤ fuel →
      ((encLoop sl pfx fuel ctr bs).flatten).length =
        bs.length + ov * ((bs.length + chunkSizeConst - 1) / chunkSizeConst) := by
  intro fuel
  induction fuel with
  | zero =>
      intro bs ctr h1
      have : bs = [] := List.eq_nil_of_length_eq_zero (Nat.le_zero.mp h1)
      subst this
      simp [encLoop, Nat.div_eq_of_lt (by decide : chunkSizeConst - 1 < chunkSizeConst)]
  | succ f ih =>
      intro bs ctr h1
      rcases bs with _ | ⟨b, bs'⟩
      · simp [encLoop, Nat.div_eq_of_lt (by decide : chunkSizeConst - 1 < chunkSizeConst)]
      · simp only [encLoop, List.isEmpty_cons, Bool.false_eq_true, if_false,
          List.flatten_cons, List.length_append, hov, List.length_take]
        rw [ih _ _ (by have := chunkSizeConst_pos; simp at h1 ⊢; omega), List.length_drop,
          ceilDiv_step _ (b :: bs').length chunkSizeConst_pos (by simp)]
        set q := ((b :: bs').length - chunkSizeConst + chunkSizeConst - 1) / chunkSizeConst
        have hdist : ov * (q + 1) = ov * q + ov := by ring
        rw [hdist]
        generalize ov * q = M
        have := chunkSizeConst_pos
        omega

/-! ### Round-trip of the chunk loops (single-layer overhead) -/

/-- Peeling one full chunk off the decrypt loop. -/
theorem decFull_cons (opn : List Nat → List Nat → Option (List Nat)) (pfx : List Nat)
    (cs k ctr : Nat) (frame s : List Nat) (chunk : List Nat)
    (hframe : frame.length = cs + 16)
    (hopen : opn (nonceFor pfx ctr) frame = some chunk) :
    decFull opn pfx cs (k + 1) ctr (frame ++ s) =
      match decFull opn pfx cs k ((ctr + 1) % 2 ^ 32) s with
      | .error e => .error e
      | .ok (rest, s'', ctrF) => .ok (chunk ++ rest, s'', ctrF) := by
  simp only [decFull, readN_exact hframe, hopen]

theorem encLoop_nil (sl : List Nat → List Nat → List Nat) (pfx : List Nat)
    (fuel ctr : Nat) : encLoop sl pfx fuel ctr [] = [] := by
  cases fuel <;> simp [encLoop]

/-- The decrypt tail inverts the encrypt loop, for any seal/open pair with
the single-layer 16-byte overhead, any surplus bytes `rest` after the body,
and any starting counter below `2^32`. -/
theorem decTail_encLoop (sl : List Nat → List Nat → List Nat)
    (opn : List Nat → List Nat → Option (List Nat)) (pfx : List Nat)
    (hlen : ∀ n p, (sl n p).length = p.length + 16)
    (hopen : ∀ n p, opn n (sl n p) = some p) :
    ∀ fuel bs ctr rest, bs.length ≤ fuel → ctr < 2 ^ 32 →
      decTail opn pfx chunkSizeConst bs.length ctr
        ((encLoop sl pfx fuel ctr bs).flatten ++ rest) = .ok bs := by
  intro fuel
  induction fuel with
  | zero =>
      intro bs ctr rest h1 _
      have : bs = [] := List.eq_nil_of_length_eq_zero (Nat.le_zero.mp h1)
      subst this
      simp [encLoop, decTail, decFull, Nat.zero_div, Nat.zero_mod]
  | succ f ih =>
      intro bs ctr rest h1 hctr
      by_cases hbs : bs = []
      · subst hbs
        simp [encLoop, decTail, decFull, Nat.zero_div, Nat.zero_mod]
      · have hbsne : bs.isEmpty = false := by simpa using hbs
        have hL : 0 < bs.length := List.length_pos.mpr hbs
        simp only [encLoop, hbsne, Bool.false_eq_true, if_false, List.flatten_cons,
          List.append_assoc]
        have hframe : (sl (nonceFor pfx ctr) (bs.take chunkSizeConst)).length =
            (bs.take chunkSizeConst).length + 16 := hlen _ _
        rcases Nat.lt_or_ge bs.length chunkSizeConst with hsmall | hbig
        · -- a single short chunk: no full chunks, one last chunk
          have hq : bs.length / chunkSizeConst = 0 := Nat.div_eq_of_lt hsmall
          have hr : bs.length % chunkSizeConst = bs.length := Nat.mod_eq_of_lt hsmall
          have htake : bs.take chunkSizeConst = bs :=
            List.take_of_length_le (Nat.le_of_lt hsmall)
          have hdrop : bs.drop chunkSizeConst = [] :=
            List.drop_of_length_le (Nat.le_of_lt hsmall)
          rw [hdrop, encLoop_nil] at *
          rw [htake] at hframe ⊢
          simp only [decTail, hq, decFull, hr, if_pos hL, List.flatten_nil,
            List.nil_append]
          rw [readN_exact (by rw [hframe] :
            (sl (nonceFor pfx ctr) bs).length = bs.length + 16)]
          simp [hopen]
        · -- a full chunk followed by the rest
          have hq : bs.length / chunkSizeConst =
              (bs.length - chunkSizeConst) / chunkSizeConst + 1 := by
            rw [← Nat.sub_add_cancel hbig, Nat.add_div_right _ chunkSizeConst_pos,
              Nat.sub_add_cancel hbig]
          have hr : bs.length % chunkSizeConst =
              (bs.length - chunkSizeConst) % chunkSizeConst := by
            conv_lhs => rw [← Nat.sub_add_cancel hbig]
            rw [Nat.add_mod_right]
          have htakelen : (bs.take chunkSizeConst).length = chunkSizeConst := by
            simp [Nat.min_eq_left hbig]
          have hdroplen : (bs.drop chunkSizeConst).length = bs.length - chunkSizeConst := by
            simp
          have hctr' : (ctr + 1) % 2 ^ 32 < 2 ^ 32 := Nat.mod_lt _ (by omega)
          have hfuel' : (bs.drop chunkSizeConst).length ≤ f := by
            have := chunkSizeConst_pos
            rw [hdroplen]
            omega
          have key := ih (bs.drop chunkSizeConst) ((ctr + 1) % 2 ^ 32) rest hfuel' hctr'
          simp only [decTail, hq, hdroplen, hr] at key ⊢
          rw [decFull_cons opn pfx chunkSizeConst _ ctr _ _ (bs.take chunkSizeConst)
            (by rw [hframe, htakelen]) (hopen _ _)]
          rcases hdec : decFull opn pfx chunkSizeConst
              ((bs.length - chunkSizeConst) / chunkSizeConst) ((ctr + 1) % 2 ^ 32)
              ((encLoop sl pfx f ((ctr + 1) % 2 ^ 32) (bs.drop chunkSizeConst)).flatten
                ++ rest) with e | p
          · rw [hdec] at key
            simp at key
          · rw [hdec] at key
            obtain ⟨pt1, s1, ctrF⟩ := p
            by_cases hlast : (bs.length - chunkSizeConst) % chunkSizeConst > 0
            · simp only [if_pos hlast] at key ⊢
              rcases hread : readN ((bs.length - chunkSizeConst) % chunkSizeConst + 16) s1
                  with _ | fr
              · rw [hread] at key
                have key2 : (Except.error DecErr.ioErr : Except DecErr (List Nat)) =
                    Except.ok (List.drop chunkSizeConst bs) := key
                simp at key2
              · rw [hread] at key
                obtain ⟨frame2, s2⟩ := fr
                have key2 : (match opn (nonceFor pfx ctrF) frame2 with
                    | none => (Except.error DecErr.authFail : Except DecErr (List Nat))
                    | some plain => Except.ok (pt1 ++ plain)) =
                    Except.ok (List.drop chunkSizeConst bs) := key
                show (match opn (nonceFor pfx ctrF) frame2 with
                    | none => (Except.error DecErr.authFail : Except DecErr (List Nat))
                    | some plain =>
                        Except.ok ((List.take chunkSizeConst bs ++ pt1) ++ plain)) =
                    Except.ok bs
                rcases hop2 : opn (nonceFor pfx ctrF) frame2 with _ | plain2
                · rw [hop2] at key2
                  simp at key2
                · rw [hop2] at key2
                  show Except.ok ((List.take chunkSizeConst bs ++ pt1) ++ plain2) =
                    Except.ok bs
                  simp only [Except.ok.injEq] at key2 ⊢
                  rw [List.append_assoc, key2, List.take_append_drop]
            · simp only [if_neg hlast] at key ⊢
              simp only [Except.ok.injEq] at key ⊢
              rw [key, List.take_append_drop]

/-! ### Parsing a well-formed header -/

/-- Parsing a container with a well-formed header yields its fields. -/
theorem parseHeader_on (m : EncryptionMode) (salt pfx : List Nat) (n : Nat)
    (body : List Nat) (hs : salt.length = 16) (hp : pfx.length = 8) :
    parseHeader (headerBytes m salt pfx n ++ body) =
      .ok (modeByte m, salt, pfx, chunkSizeConst, n % 2 ^ 64, body) := by
  simp only [parseHeader, headerBytes, List.append_assoc]
  rw [readN_exact (show magicBytes.length = 4 from rfl)]
  simp only [ne_eq, not_true_eq_false, if_false, ite_false, reduceIte]
  rw [readN_exact (show ([1] : List Nat).length = 1 from rfl)]
  simp only [ne_eq, not_true_eq_false, if_false, ite_false, reduceIte]
  rw [readN_exact (show ([modeByte m] : List Nat).length = 1 from rfl)]
  simp only [readN_exact hs, readN_exact hp,
    readN_exact (show (be32 chunkSizeConst).length = 4 from rfl),
    readN_exact (show (be64 n).length = 8 from rfl), List.headD_cons,
    fromBE_be32, fromBE_be64,
    show chunkSizeConst % 2 ^ 32 = chunkSizeConst from by decide]

/-- Evaluating `DecryptFile` on a container with a well-formed header reduces to the
mode dispatch followed by the chunk decrypting tail. -/
theorem decryptFile_parse (kit : CipherKit) (pw : List Nat) (m : EncryptionMode)
    (salt pfx : List Nat) (n : Nat) (body : List Nat)
    (hs : salt.length = 16) (hp : pfx.length = 8) :
    decryptFile kit pw (headerBytes m salt pfx n ++ body) =
      match openForModeByte kit pw salt (modeByte m) with
      | none => .err .badMode
      | some opn =>
          match decTail opn pfx chunkSizeConst (n % 2 ^ 64) 0 body with
          | .error e => .err e
          | .ok pt => .ok pt := by
  simp only [decryptFile, parseHeader_on m salt pfx n body hs hp,
    show (chunkSizeConst = 0) = False from by simp [chunkSizeConst], if_false, ite_false]

theorem headerBytes_length (m : EncryptionMode) (salt pfx : List Nat) (n : Nat)
    (hs : salt.length = 16) (hp : pfx.length = 8) :
    (headerBytes m salt pfx n).length = 42 := by
  simp [headerBytes, magicBytes, hs, hp, be32, be64]

theorem headerBytes_drop34 (m : EncryptionMode) (salt pfx : List Nat) (n : Nat)
    (hs : salt.length = 16) (hp : pfx.length = 8) :
    (headerBytes m salt pfx n).drop 34 = be64 n := by
  have hsplit : headerBytes m salt pfx n =
      (magicBytes ++ [1] ++ [modeByte m] ++ salt ++ pfx ++ be32 chunkSizeConst) ++ be64 n := by
    simp [headerBytes, List.append_assoc]
  rw [hsplit, List.drop_left' (by simp [magicBytes, hs, hp, be32])]

theorem encLoop_single (sl : List Nat → List Nat → List Nat) (pfx : List Nat)
    (ctr : Nat) (bs : List Nat) (fuel : Nat) (hne : bs ≠ [])
    (hle : bs.length ≤ chunkSizeConst) (hf : bs.length ≤ fuel) :
    encLoop sl pfx fuel ctr bs = [sl (nonceFor pfx ctr) bs] := by
  cases fuel with
  | zero => cases hne (List.eq_nil_of_length_eq_zero (Nat.le_zero.mp hf))
  | succ f =>
      have hbsne : bs.isEmpty = false := by simpa using hne
      simp only [encLoop, hbsne, Bool.false_eq_true, if_false,
        List.take_of_length_le hle, List.drop_of_length_le hle, encLoop_nil]

/-- Single-layer round trip, with arbitrary surplus bytes appended to the
container: `DecryptFile` recovers the plaintext that
`EncryptFileWithMode` sealed, in AES-256-GCM and ChaCha20-Poly1305
modes. -/
theorem roundtrip_single_layer (kit : CipherKit) (hkit : KitSound kit)
    (m : EncryptionMode) (hm : m = .aes256gcm ∨ m = .chacha20)
    (pw salt pfx pt junk : List Nat) (hs : salt.length = 16) (hp : pfx.length = 8)
    (hn : pt.length < 2 ^ 64) (C : List Nat)
    (hC : encryptFileWithMode kit m pw salt pfx pt = some C) :
    decryptFile kit pw (C ++ junk) = .ok pt := by
  obtain ⟨h1, h2, h3, h4, h5, h6⟩ := hkit
  rcases hm with hm | hm <;> subst hm
  · simp only [encryptFileWithMode, Option.some.injEq] at hC
    subst hC
    rw [List.append_assoc, decryptFile_parse kit pw _ salt pfx _ _ hs hp]
    simp only [modeByte, openForModeByte, Nat.mod_eq_of_lt hn, sealForMode]
    rw [decTail_encLoop (kit.mkAES (kit.kdf pw salt)).Seal
      (kit.mkAES (kit.kdf pw salt)).Open pfx (h1 _) (h2 _)
      pt.length pt 0 junk le_rfl (by omega)]
  · simp only [encryptFileWithMode, Option.some.injEq] at hC
    subst hC
    rw [List.append_assoc, decryptFile_parse kit pw _ salt pfx _ _ hs hp]
    simp only [modeByte, openForModeByte, Nat.mod_eq_of_lt hn, sealForMode]
    rw [decTail_encLoop (kit.mkChaCha (kit.kdf pw salt)).Seal
      (kit.mkChaCha (kit.kdf pw salt)).Open pfx (h4 _) (h5 _)
      pt.length pt 0 junk le_rfl (by omega)]

/-- Evaluating `decTail` on a total size smaller than one chunk: a single short-chunk
read and open. -/
theorem decTail_short (opn : List Nat → List Nat → Option (List Nat)) (pfx : List Nat)
    (ts : Nat) (s : List Nat) (h0 : 0 < ts) (hts : ts < chunkSizeConst) :
    decTail opn pfx chunkSizeConst ts 0 s =
      match readN (ts + 16) s with
      | none => .error .ioErr
      | some (frame, _) =>
          match opn (nonceFor pfx 0) frame with
          | none => .error .authFail
          | some plain => .ok plain := by
  simp only [decTail, Nat.div_eq_of_lt hts, decFull, Nat.mod_eq_of_lt hts, if_pos h0]
  rcases readN (ts + 16) s with _ | fr
  · rfl
  · obtain ⟨f, s'⟩ := fr
    rcases opn (nonceFor pfx 0) f with _ | plain
    · rfl
    · simp

/-- Claim C1: encrypt-then-decrypt round trip.  The single-layer modes do
round-trip (see `roundtrip_single_layer`), but the claim fails for
Cascade: `readCipher` reads only `chunkSize + 16` bytes per frame while a
cascade frame is `chunkSize + 32` bytes long, so `DecryptFile` opens a
truncated outer frame.  For the spec's own 5-byte example `"hello"`, the
outer open either fails directly or yields a 5-byte intermediate that the
inner AEAD cannot open (a plaintext would need negative length), so
decryption with the correct password returns `AuthenticationFailed`
instead of `"hello"`. -/
theorem c1_cascade_roundtrip_fails (kit : CipherKit) (hkit : KitSound kit)
    (pw salt pfx : List Nat) (hs : salt.length = 16) (hp : pfx.length = 8)
    (C : List Nat)
    (hC : encryptFileWithMode kit .paranoid pw salt pfx [104, 101, 108, 108, 111] = some C) :
    decryptFile kit pw C = .err .authFail := by
  obtain ⟨h1, h2, h3, h4, h5, h6⟩ := hkit
  simp only [encryptFileWithMode, Option.some.injEq] at hC
  subst hC
  rw [encLoop_single _ _ _ _ _ (by decide) (by decide) le_rfl]
  have hbody : ([sealForMode kit pw salt .paranoid (nonceFor pfx 0)
      [104, 101, 108, 108, 111]]).flatten =
      sealForMode kit pw salt .paranoid (nonceFor pfx 0) [104, 101, 108, 108, 111] := by
    simp
  rw [hbody, decryptFile_parse kit pw _ salt pfx _ _ hs hp]
  simp only [modeByte, openForModeByte]
  rw [show (List.length [104, 101, 108, 108, 111] : Nat) % 2 ^ 64 = 5 from by decide,
    decTail_short _ _ _ _ (by decide) (by decide)]
  set key := kit.kdf pw salt
  set key2 := kit.kdf2 (pw ++ paranoidBytes) salt
  have hinner : ((kit.mkAES key).Seal (nonceFor pfx 0) [104, 101, 108, 108, 111]).length =
      5 + 16 := h1 _ _ _
  have houter : (sealForMode kit pw salt .paranoid (nonceFor pfx 0)
      [104, 101, 108, 108, 111]).length = 5 + 16 + 16 := by
    simp only [sealForMode]
    rw [h4, hinner]
  rw [show (5 : Nat) + 16 = 21 from rfl] at *
  have hread : readN 21 (sealForMode kit pw salt .paranoid (nonceFor pfx 0)
      [104, 101, 108, 108, 111]) =
      some ((sealForMode kit pw salt .paranoid (nonceFor pfx 0)
        [104, 101, 108, 108, 111]).take 21,
        (sealForMode kit pw salt .paranoid (nonceFor pfx 0)
        [104, 101, 108, 108, 111]).drop 21) := by
    simp only [readN, houter]
    rw [if_pos (by omega)]
  have htklen : ((sealForMode kit pw salt .paranoid (nonceFor pfx 0)
      [104, 101, 108, 108, 111]).take 21).length = 21 := by
    rw [List.length_take, houter]
    omega
  rcases hout : (kit.mkChaCha key2).Open (nonceFor pfx 0)
      ((sealForMode kit pw salt .paranoid (nonceFor pfx 0)
        [104, 101, 108, 108, 111]).take 21) with _ | im
  · simp only [hread, hout]
  · have him : im.length = 5 := by
      have hx := h6 _ _ _ _ hout
      rw [htklen] at hx
      omega
    rcases hin : (kit.mkAES key).Open (nonceFor pfx 0) im with _ | p
    · simp only [hread, hout, hin]
    · exfalso
      have hx := h3 _ _ _ _ hin
      omega

set_option maxRecDepth 100000 in
/-- Witness for C1 at a concrete input: password `"x"`, zero salt and nonce
prefix, plaintext `"hello"`, demo ciphers. -/
theorem c1_cascade_roundtrip_fails_witness :
    decryptFile demoKit [120]
      ((encryptFileWithMode demoKit .paranoid [120] (List.replicate 16 0)
        (List.replicate 8 0) [104, 101, 108, 108, 111]).getD []) = .err .authFail :=
  c1_cascade_roundtrip_fails demoKit demoKit_sound [120] (List.replicate 16 0)
    (List.replicate 8 0) (by decide) (by decide) _ (by decide)

/-! ### Surplus bytes after the last chunk are ignored -/

theorem readN_mono {n : Nat} {s a s' junk : List Nat}
    (h : readN n s = some (a, s')) :
    readN n (s ++ junk) = some (a, s' ++ junk) := by
  simp only [readN] at h ⊢
  split at h
  · rename_i hle
    simp only [Option.some.injEq, Prod.mk.injEq] at h
    obtain ⟨rfl, rfl⟩ := h
    rw [if_pos (by simp only [List.length_append]; omega)]
    simp only [Option.some.injEq, Prod.mk.injEq]
    exact ⟨List.take_append_of_le_length hle, List.drop_append_of_le_length hle⟩
  · exact absurd h (by simp)

theorem decFull_mono (opn : List Nat → List Nat → Option (List Nat)) (pfx : List Nat)
    (cs : Nat) :
    ∀ k ctr s junk pt s' ctrF,
      decFull opn pfx cs k ctr s = .ok (pt, s', ctrF) →
      decFull opn pfx cs k ctr (s ++ junk) = .ok (pt, s' ++ junk, ctrF) := by
  intro k
  induction k with
  | zero =>
      intro ctr s junk pt s' ctrF h
      simp only [decFull, Except.ok.injEq, Prod.mk.injEq] at h ⊢
      obtain ⟨rfl, rfl, rfl⟩ := h
      exact ⟨rfl, rfl, rfl⟩
  | succ k ih =>
      intro ctr s junk pt s' ctrF h
      simp only [decFull] at h ⊢
      rcases hr : readN (cs + 16) s with _ | fr
      · rw [hr] at h
        simp at h
      · obtain ⟨frame, s1⟩ := fr
        rw [hr] at h
        rw [readN_mono hr]
        have h2 : (match opn (nonceFor pfx ctr) frame with
            | none => (Except.error DecErr.authFail :
                Except DecErr (List Nat × List Nat × Nat))
            | some plain =>
                match decFull opn pfx cs k ((ctr + 1) % 2 ^ 32) s1 with
                | .error e => .error e
                | .ok (rest, s'', c2) => .ok (plain ++ rest, s'', c2)) =
            .ok (pt, s', ctrF) := h
        show (match opn (nonceFor pfx ctr) frame with
            | none => (Except.error DecErr.authFail :
                Except DecErr (List Nat × List Nat × Nat))
            | some plain =>
                match decFull opn pfx cs k ((ctr + 1) % 2 ^ 32) (s1 ++ junk) with
                | .error e => .error e
                | .ok (rest, s'', c2) => .ok (plain ++ rest, s'', c2)) =
            .ok (pt, s' ++ junk, ctrF)
        rcases ho : opn (nonceFor pfx ctr) frame with _ | plain
        · rw [ho] at h2
          simp at h2
        · rw [ho] at h2
          rcases hrec : decFull opn pfx cs k ((ctr + 1) % 2 ^ 32) s1 with e | p
          · rw [hrec] at h2
            simp at h2
          · obtain ⟨pt1, s2, c2⟩ := p
            rw [hrec] at h2
            simp only [Except.ok.injEq, Prod.mk.injEq] at h2
            obtain ⟨rfl, rfl, rfl⟩ := h2
            rw [ih _ _ junk _ _ _ hrec]

theorem decTail_mono (opn : List Nat → List Nat → Option (List Nat)) (pfx : List Nat)
    (cs ts ctr0 : Nat) (s junk pt : List Nat)
    (h : decTail opn pfx cs ts ctr0 s = .ok pt) :
    decTail opn pfx cs ts ctr0 (s ++ junk) = .ok pt := by
  simp only [decTail] at h ⊢
  rcases hf : decFull opn pfx cs (ts / cs) ctr0 s with e | p
  · rw [hf] at h
    simp at h
  · obtain ⟨pt1, s1, ctrF⟩ := p
    rw [hf] at h
    rw [decFull_mono opn pfx cs _ _ _ junk _ _ _ hf]
    have h2 : (if ts % cs > 0 then
        match readN (ts % cs + 16) s1 with
        | none => (Except.error DecErr.ioErr : Except DecErr (List Nat))
        | some (frame, _) =>
            match opn (nonceFor pfx ctrF) frame with
            | none => .error .authFail
            | some plain => .ok (pt1 ++ plain)
      else .ok pt1) = .ok pt := h
    show (if ts % cs > 0 then
        match readN (ts % cs + 16) (s1 ++ junk) with
        | none => (Except.error DecErr.ioErr : Except DecErr (List Nat))
        | some (frame, _) =>
            match opn (nonceFor pfx ctrF) frame with
            | none => .error .authFail
            | some plain => .ok (pt1 ++ plain)
      else .ok pt1) = .ok pt
    by_cases hlast : ts % cs > 0
    · rw [if_pos hlast] at h2 ⊢
      rcases hr : readN (ts % cs + 16) s1 with _ | fr
      · rw [hr] at h2
        simp at h2
      · obtain ⟨frame, s2⟩ := fr
        rw [hr] at h2
        rw [readN_mono hr]
        exact h2
    · rw [if_neg hlast] at h2 ⊢
      exact h2

theorem parseHeader_mono {s junk : List Nat} {mb : Nat} {salt pfx : List Nat}
    {cs ts : Nat} {s7 : List Nat}
    (h : parseHeader s = .ok (mb, salt, pfx, cs, ts, s7)) :
    parseHeader (s ++ junk) = .ok (mb, salt, pfx, cs, ts, s7 ++ junk) := by
  simp only [parseHeader] at h ⊢
  split at h
  · simp at h
  · rename_i magic s1 heq1
    split at h
    · simp at h
    · rename_i hm
      split at h
      · simp at h
      · rename_i ver s2 heq2
        split at h
        · simp at h
        · rename_i hv
          split at h
          · simp at h
          · rename_i mb0 s3 heq3
            split at h
            · simp at h
            · rename_i salt0 s4 heq4
              split at h
              · simp at h
              · rename_i pfx0 s5 heq5
                split at h
                · simp at h
                · rename_i csB s6 heq6
                  split at h
                  · simp at h
                  · rename_i tsB s7' heq7
                    simp only [Except.ok.injEq, Prod.mk.injEq] at h
                    obtain ⟨rfl, rfl, rfl, rfl, rfl, rfl⟩ := h
                    have hm' : magic = magicBytes := not_ne_iff.mp hm
                    have hv' : ver = [1] := not_ne_iff.mp hv
                    simp only [readN_mono heq1, hm', ne_eq, not_true_eq_false,
                      ite_false, reduceIte, readN_mono heq2, hv', readN_mono heq3,
                      readN_mono heq4, readN_mono heq5, readN_mono heq6,
                      readN_mono heq7]

/-- Claim C4 (amended): `DecryptFile` stops reading after the last chunk
and never checks for end of input.  Appending arbitrary surplus bytes to
any container that decrypts successfully leaves the result unchanged: the
surplus is silently ignored, and no `CorruptTrailingData` failure
exists. -/
theorem c4_trailing_bytes_ignored (kit : CipherKit) (pw s junk pt : List Nat)
    (h : decryptFile kit pw s = .ok pt) :
    decryptFile kit pw (s ++ junk) = .ok pt := by
  simp only [decryptFile] at h ⊢
  split at h
  · simp at h
  · rename_i mb salt pfx cs ts s7 heqP
    split at h
    · simp at h
    · rename_i opn heqO
      split at h
      · simp at h
      · rename_i hcs
        split at h
        · simp at h
        · rename_i pt' heqT
          simp only [DecResult.ok.injEq] at h
          subst h
          rw [parseHeader_mono heqP]
          simp only [heqO, if_neg hcs, decTail_mono _ _ _ _ _ _ junk _ heqT]

set_option maxRecDepth 100000 in
/-- Counterexample to C4 as stated: a valid (empty-plaintext) container
with one surplus byte appended still decrypts successfully — no
`CorruptTrailingData` failure occurs. -/
theorem c4_trailing_bytes_counterexample :
    encryptFileWithMode demoKit .aes256gcm [120] (List.replicate 16 0)
      (List.replicate 8 0) [] =
      some (headerBytes .aes256gcm (List.replicate 16 0) (List.replicate 8 0) 0) ∧
    decryptFile demoKit [120]
      (headerBytes .aes256gcm (List.replicate 16 0) (List.replicate 8 0) 0 ++ [7]) =
      .ok [] := by decide

set_option maxRecDepth 100000 in
/-- Witness for C4 (amended) at a concrete container and surplus. -/
theorem c4_trailing_bytes_ignored_witness :
    decryptFile demoKit [120]
      (headerBytes .aes256gcm (List.replicate 16 0) (List.replicate 8 0) 0 ++ [9, 9]) =
      .ok [] :=
  c4_trailing_bytes_ignored demoKit [120]
    (headerBytes .aes256gcm (List.replicate 16 0) (List.replicate 8 0) 0) [9, 9] []
    (by decide)

/-- Claim C2: for the three AEAD modes the container is the 42-byte header
followed by a body of exactly `⌈N / chunkSize⌉ · overhead + N` bytes,
where the overhead is 16 for the single-layer modes and 32 for Cascade;
a 0-byte plaintext gives a 42-byte container whose total-size field is
0. -/
theorem c2_container_length (kit : CipherKit) (hkit : KitSound kit)
    (m : EncryptionMode) (hm : m = .aes256gcm ∨ m = .chacha20 ∨ m = .paranoid)
    (pw salt pfx pt : List Nat) (hs : salt.length = 16) (hp : pfx.length = 8)
    (C : List Nat) (hC : encryptFileWithMode kit m pw salt pfx pt = some C) :
    C.length = 42 + pt.length +
      modeOverhead m * ((pt.length + chunkSizeConst - 1) / chunkSizeConst) ∧
    (pt = [] → C.length = 42 ∧ C.drop 34 = be64 0) := by
  obtain ⟨h1, h2, h3, h4, h5, h6⟩ := hkit
  have hov : ∀ n p, ((sealForMode kit pw salt m) n p).length =
      p.length + modeOverhead m := by
    rcases hm with hm | hm | hm <;> subst hm <;> intro n p
    · simp only [sealForMode, modeOverhead, h1]
    · simp only [sealForMode, modeOverhead, h4]
    · simp only [sealForMode, modeOverhead, h1, h4]
  have hCval : C = headerBytes m salt pfx pt.length ++
      (encLoop (sealForMode kit pw salt m) pfx pt.length 0 pt).flatten := by
    rcases hm with hm | hm | hm <;> subst hm <;>
      (simp only [encryptFileWithMode, Option.some.injEq] at hC; exact hC.symm)
  constructor
  · rw [hCval, List.length_append, headerBytes_length _ _ _ _ hs hp,
      encLoop_flatten_length _ _ _ hov _ _ _ le_rfl]
    ring
  · intro hpt
    subst hpt
    simp only [List.length_nil] at hCval
    rw [hCval]
    simp only [encLoop, List.flatten_nil, List.append_nil]
    exact ⟨headerBytes_length _ _ _ _ hs hp, headerBytes_drop34 _ _ _ _ hs hp⟩

set_option maxRecDepth 100000 in
/-- Witness for C2 at a concrete input: the empty plaintext in AES-GCM
mode yields a 42-byte container with a zero total-size field. -/
theorem c2_container_length_witness :
    ((encryptFileWithMode demoKit .aes256gcm [120] (List.replicate 16 0)
        (List.replicate 8 0) []).getD []).length =
      42 + List.length ([] : List Nat) + modeOverhead .aes256gcm *
        ((List.length ([] : List Nat) + chunkSizeConst - 1) / chunkSizeConst) ∧
    (([] : List Nat) = [] →
      ((encryptFileWithMode demoKit .aes256gcm [120] (List.replicate 16 0)
          (List.replicate 8 0) []).getD []).length = 42 ∧
      ((encryptFileWithMode demoKit .aes256gcm [120] (List.replicate 16 0)
          (List.replicate 8 0) []).getD []).drop 34 = be64 0) :=
  c2_container_length demoKit demoKit_sound .aes256gcm (Or.inl rfl) [120]
    (List.replicate 16 0) (List.replicate 8 0) [] (by decide) (by decide)
    ((encryptFileWithMode demoKit .aes256gcm [120] (List.replicate 16 0)
      (List.replicate 8 0) []).getD []) (by decide)

/-- The sixth byte of any container is the mode byte. -/
theorem headerBytes_get5 (m : EncryptionMode) (salt pfx : List Nat) (n : Nat)
    (rest : List Nat) :
    ((headerBytes m salt pfx n) ++ rest)[5]? = some (modeByte m) := by
  simp [headerBytes, magicBytes, List.cons_append, List.nil_append, List.append_assoc]

set_option maxRecDepth 100000 in
/-- Counterexample to C5 as stated: the post-quantum Kyber-768 mode is
selectable in the UI mode list and `EncryptFileWithMode` happily emits its
header: the emitted mode byte is 3, not one of {0, 1, 2}. -/
theorem c5_pq_mode_byte_counterexample :
    ((encryptFileWithMode demoKit .kyber768 [120] (List.replicate 16 0)
      (List.replicate 8 0) []).getD [])[5]? = some 3 ∧
    ¬ (3 ∈ ([0, 1, 2] : List Nat)) := by decide

/-- Claim C5 (amended): the mode byte emitted in the header by
`EncryptFileWithMode` is exactly `byte(mode)` for every mode it accepts,
and that byte lies in {0, 1, 2} precisely for the three AEAD modes —
the selectable post-quantum modes emit the reserved bytes 3, 4 and 5. -/
theorem c5_mode_byte_values (kit : CipherKit) (m : EncryptionMode)
    (pw salt pfx pt : List Nat) (C : List Nat)
    (hC : encryptFileWithMode kit m pw salt pfx pt = some C) :
    C[5]? = some (modeByte m) ∧
    (modeByte m ∈ ([0, 1, 2] : List Nat) ↔
      m = .aes256gcm ∨ m = .chacha20 ∨ m = .paranoid) := by
  constructor
  · cases m
    case aes256gcm | chacha20 | paranoid =>
      simp only [encryptFileWithMode, Option.some.injEq] at hC
      subst hC
      exact headerBytes_get5 _ _ _ _ _
    case kyber768 | dilithium3 | sphincsPlus =>
      simp only [encryptFileWithMode] at hC
      split at hC
      · simp only [Option.some.injEq] at hC
        subst hC
        exact headerBytes_get5 _ _ _ _ _
      · exact absurd hC (by simp)
  · cases m <;> decide

set_option maxRecDepth 100000 in
/-- Witness for C5 (amended) at a concrete input: Dilithium-3 emits mode
byte 4. -/
theorem c5_mode_byte_values_witness :
    ((encryptFileWithMode demoKit .dilithium3 [120] (List.replicate 16 0)
        (List.replicate 8 0) []).getD [])[5]? = some (modeByte .dilithium3) ∧
    (modeByte .dilithium3 ∈ ([0, 1, 2] : List Nat) ↔
      EncryptionMode.dilithium3 = EncryptionMode.aes256gcm ∨
      EncryptionMode.dilithium3 = EncryptionMode.chacha20 ∨
      EncryptionMode.dilithium3 = EncryptionMode.paranoid) :=
  c5_mode_byte_values demoKit .dilithium3 [120] (List.replicate 16 0)
    (List.replicate 8 0) []
    ((encryptFileWithMode demoKit .dilithium3 [120] (List.replicate 16 0)
      (List.replicate 8 0) []).getD []) (by decide)

/-! ### Header validation errors -/

/-- The decrypt mode switch rejects every byte other than 0, 1, 2. -/
theorem openForModeByte_none (kit : CipherKit) (pw salt : List Nat) (mb : Nat)
    (hmb : ¬ (mb = 0 ∨ mb = 1 ∨ mb = 2)) :
    openForModeByte kit pw salt mb = none := by
  cases mb with
  | zero => exact absurd (Or.inl rfl) hmb
  | succ m1 =>
    cases m1 with
    | zero => exact absurd (Or.inr (Or.inl rfl)) hmb
    | succ m2 =>
      cases m2 with
      | zero => exact absurd (Or.inr (Or.inr rfl)) hmb
      | succ m3 => rfl

theorem decryptFile_parseErr (kit : CipherKit) (pw s : List Nat) (e : DecErr)
    (h : parseHeader s = .error e) : decryptFile kit pw s = .err e := by
  simp only [decryptFile, h]

/-- Claim C6: `DecryptFile` fails with `BadFormat` when the four magic
bytes are not `HAD1`, with `UnsupportedVersion` when the version byte is
not 1, and with `UnsupportedMode` when the mode byte is outside {0, 1, 2}
(the remaining 36 header bytes being present); in each case it returns an
error and produces no plaintext. -/
theorem c6_header_validation (kit : CipherKit) (pw : List Nat) (m4 : List Nat)
    (v mb : Nat) (rest : List Nat) (h4 : m4.length = 4) :
    (m4 ≠ magicBytes →
      decryptFile kit pw (m4 ++ [v] ++ [mb] ++ rest) = .err .badMagic) ∧
    (m4 = magicBytes → v ≠ 1 →
      decryptFile kit pw (m4 ++ [v] ++ [mb] ++ rest) = .err .badVersion) ∧
    (m4 = magicBytes → v = 1 → 36 ≤ rest.length → ¬ (mb = 0 ∨ mb = 1 ∨ mb = 2) →
      decryptFile kit pw (m4 ++ [v] ++ [mb] ++ rest) = .err .badMode) := by
  refine ⟨?_, ?_, ?_⟩
  · intro hne
    apply decryptFile_parseErr
    simp only [parseHeader, List.append_assoc, readN_exact h4]
    rw [if_pos hne]
  · intro hm4 hv
    subst hm4
    apply decryptFile_parseErr
    simp only [parseHeader, List.append_assoc]
    simp only [readN_exact (show magicBytes.length = 4 from rfl), ne_eq,
      not_true_eq_false, if_false, ite_false, reduceIte]
    simp only [readN_exact (show ([v] : List Nat).length = 1 from rfl)]
    rw [if_pos (show ([v] : List Nat) ≠ [1] by simpa using hv)]
  · intro hm4 hv h36 hmb
    subst hm4
    subst hv
    have e16 : readN 16 rest = some (rest.take 16, rest.drop 16) := by
      simp only [readN]
      rw [if_pos (by omega)]
    have e8 : readN 8 (rest.drop 16) =
        some ((rest.drop 16).take 8, (rest.drop 16).drop 8) := by
      simp only [readN, List.length_drop]
      rw [if_pos (by omega)]
    have e4 : readN 4 ((rest.drop 16).drop 8) =
        some (((rest.drop 16).drop 8).take 4, ((rest.drop 16).drop 8).drop 4) := by
      simp only [readN, List.length_drop]
      rw [if_pos (by omega)]
    have e8b : readN 8 (((rest.drop 16).drop 8).drop 4) =
        some ((((rest.drop 16).drop 8).drop 4).take 8,
          (((rest.drop 16).drop 8).drop 4).drop 8) := by
      simp only [readN, List.length_drop]
      rw [if_pos (by omega)]
    simp only [decryptFile, parseHeader, List.append_assoc]
    simp only [readN_exact (show magicBytes.length = 4 from rfl), ne_eq,
      not_true_eq_false, if_false, ite_false, reduceIte]
    simp only [readN_exact (show ([1] : List Nat).length = 1 from rfl), ne_eq,
      not_true_eq_false, if_false, ite_false, reduceIte]
    simp only [readN_exact (show ([mb] : List Nat).length = 1 from rfl),
      e16, e8, e4, e8b, List.headD_cons,
      openForModeByte_none kit pw (List.take 16 rest) mb hmb]

set_option maxRecDepth 100000 in
/-- Witness for C6 at concrete inputs: wrong magic, wrong version, and a
reserved mode byte each produce the matching error. -/
theorem c6_header_validation_witness :
    decryptFile demoKit [120] ([0, 0, 0, 0] ++ [1] ++ [0] ++ List.replicate 36 0) =
      .err .badMagic ∧
    decryptFile demoKit [120] (magicBytes ++ [2] ++ [0] ++ List.replicate 36 0) =
      .err .badVersion ∧
    decryptFile demoKit [120] (magicBytes ++ [1] ++ [7] ++ List.replicate 36 0) =
      .err .badMode :=
  ⟨(c6_header_validation demoKit [120] [0, 0, 0, 0] 1 0 (List.replicate 36 0)
      (by decide)).1 (by decide),
   (c6_header_validation demoKit [120] magicBytes 2 0 (List.replicate 36 0)
      (by decide)).2.1 rfl (by decide),
   (c6_header_validation demoKit [120] magicBytes 1 7 (List.replicate 36 0)
      (by decide)).2.2 rfl rfl (by decide) (by decide)⟩

/-! ### Division by a zero chunk-size field -/

theorem parseHeader_zero_cs (mbv : Nat) (salt pfx : List Nat) (tsv : Nat)
    (body : List Nat) (hs : salt.length = 16) (hp : pfx.length = 8) :
    parseHeader (magicBytes ++ [1] ++ [mbv] ++ salt ++ pfx ++ be32 0 ++
        be64 tsv ++ body) =
      .ok (mbv, salt, pfx, 0, tsv % 2 ^ 64, body) := by
  simp only [parseHeader, List.append_assoc]
  simp only [readN_exact (show magicBytes.length = 4 from rfl), ne_eq,
    not_true_eq_false, if_false, ite_false, reduceIte]
  simp only [readN_exact (show ([1] : List Nat).length = 1 from rfl), ne_eq,
    not_true_eq_false, if_false, ite_false, reduceIte]
  simp only [readN_exact (show ([mbv] : List Nat).length = 1 from rfl),
    readN_exact hs, readN_exact hp,
    readN_exact (show (be32 0).length = 4 from rfl),
    readN_exact (show (be64 tsv).length = 8 from rfl), List.headD_cons,
    fromBE_be32, fromBE_be64, Nat.zero_mod]

/-- Claim C10: a well-formed 42-byte header (magic `HAD1`, version 1,
mode in {0, 1, 2}) whose chunk-size field is 0 drives `DecryptFile` into
the unguarded integer division `totalSize / chunkSize` — a runtime
division-by-zero panic, not an error return. -/
theorem c10_chunk_size_zero_crash (kit : CipherKit) (pw : List Nat) (mbv : Nat)
    (hmb : mbv = 0 ∨ mbv = 1 ∨ mbv = 2) (salt pfx : List Nat)
    (hs : salt.length = 16) (hp : pfx.length = 8) (tsv : Nat) (body : List Nat) :
    decryptFile kit pw
      (magicBytes ++ [1] ++ [mbv] ++ salt ++ pfx ++ be32 0 ++ be64 tsv ++ body) =
      .crash := by
  simp only [decryptFile, parseHeader_zero_cs mbv salt pfx tsv body hs hp]
  rcases hmb with h | h | h <;> subst h <;> simp [openForModeByte]

set_option maxRecDepth 100000 in
/-- Witness for C10 at a concrete header with a zero chunk-size field. -/
theorem c10_chunk_size_zero_crash_witness :
    decryptFile demoKit [120]
      (magicBytes ++ [1] ++ [0] ++ List.replicate 16 0 ++ List.replicate 8 0 ++
        be32 0 ++ be64 0 ++ []) = .crash :=
  c10_chunk_size_zero_crash demoKit [120] 0 (Or.inl rfl) (List.replicate 16 0)
    (List.replicate 8 0) (by decide) (by decide) 0 []

/-! ### Keyfile combination claims -/

theorem combineWrites_enumFrom (ro : Bool) :
    ∀ (i : Nat) (ds : List (List Nat)),
      combineWrites ro i ds =
        ((List.enumFrom i ds).map fun p => p.2 ++ if ro then [p.1 % 256] else []).flatten := by
  intro i ds
  induction ds generalizing i with
  | nil => simp [combineWrites]
  | cons d t ih =>
      simp [combineWrites, List.enumFrom_cons, ih (i + 1), List.append_assoc]

/-- Claim C7: the compound secret returned by `GetCombinedKey` is the
SHA-256 of the password bytes followed by each keyfile's 32-byte digest in
order, each digest being followed by its one-byte position index exactly
when `require_order` is set — the concatenation described by the spec
(`specCompoundInput`). -/
theorem c7_combined_key_matches_spec (km : KeyfileManager) (pw : List Nat) :
    getCombinedKey km pw = sha256 (specCompoundInput pw km.keyfiles km.requireOrder) := by
  simp only [getCombinedKey, specCompoundInput, List.enum]
  rw [combineWrites_enumFrom]

theorem combineWrites_inj (ro : Bool) :
    ∀ (ds1 ds2 : List (List Nat)) (i : Nat),
      (∀ d ∈ ds1, d.length = 32) → (∀ d ∈ ds2, d.length = 32) →
      combineWrites ro i ds1 = combineWrites ro i ds2 → ds1 = ds2 := by
  intro ds1
  induction ds1 with
  | nil =>
      intro ds2 i _ h2 heq
      rcases ds2 with _ | ⟨d, t⟩
      · rfl
      · exfalso
        have hlen := congrArg List.length heq
        have hd := h2 d (by simp)
        rcases ro with _ | _ <;> simp [combineWrites] at hlen <;> omega
  | cons d1 t1 ih =>
      intro ds2 i h1 h2 heq
      rcases ds2 with _ | ⟨d2, t2⟩
      · exfalso
        have hlen := congrArg List.length heq
        have hd := h1 d1 (by simp)
        rcases ro with _ | _ <;> simp [combineWrites] at hlen
        all_goals simp_all
      · have hd1 := h1 d1 (by simp)
        have hd2 := h2 d2 (by simp)
        simp only [combineWrites, List.append_assoc] at heq
        obtain ⟨hd, hrest⟩ := List.append_inj heq (by rw [hd1, hd2])
        subst hd
        have hrest2 : combineWrites ro (i + 1) t1 = combineWrites ro (i + 1) t2 := by
          rcases ro with _ | _ <;> simpa using hrest
        rw [ih t2 (i + 1) (fun d hd => h1 d (by simp [hd]))
          (fun d hd => h2 d (by simp [hd])) hrest2]

/-- Claim C3 (amended): `GetCombinedKey` feeds the keyfile digests to
SHA-256 in list order in both `require_order` settings — the flag only
adds position bytes.  Whenever the two digest sequences differ (in
particular for any order-changing permutation of distinct digests), the
hashed preimage differs in BOTH settings, so the compound secrets differ
up to a SHA-256 collision; `require_order = false` does NOT make the
combination order-insensitive. -/
theorem c3_keyfile_order_sensitivity (pw : List Nat) (km1 km2 : KeyfileManager)
    (hro : km1.requireOrder = km2.requireOrder)
    (h1 : ∀ d ∈ km1.keyfiles, d.length = 32)
    (h2 : ∀ d ∈ km2.keyfiles, d.length = 32)
    (hne : km1.keyfiles ≠ km2.keyfiles) :
    pw ++ combineWrites km1.requireOrder 0 km1.keyfiles ≠
      pw ++ combineWrites km2.requireOrder 0 km2.keyfiles := by
  intro h
  rw [hro] at h
  exact hne (combineWrites_inj km2.requireOrder km1.keyfiles km2.keyfiles 0 h1 h2
    (List.append_cancel_left h))

set_option maxRecDepth 400000 in
set_option maxHeartbeats 2000000 in
/-- Counterexample to C3 as stated: two keyfile sets holding the same two
distinct digests in swapped order, with `require_order = false`, produce
different compound secrets (the claim says they must be equal). -/
theorem c3_unordered_permutation_counterexample :
    getCombinedKey ⟨[List.replicate 32 0, List.replicate 32 1], false⟩ [120] ≠
      getCombinedKey ⟨[List.replicate 32 1, List.replicate 32 0], false⟩ [120] := by
  decide

set_option maxRecDepth 100000 in
/-- Witness for C3 (amended) at concrete digest lists. -/
theorem c3_keyfile_order_sensitivity_witness :
    [120] ++ combineWrites false 0 [List.replicate 32 0, List.replicate 32 1] ≠
      [120] ++ combineWrites false 0 [List.replicate 32 1, List.replicate 32 0] :=
  c3_keyfile_order_sensitivity [120]
    ⟨[List.replicate 32 0, List.replicate 32 1], false⟩
    ⟨[List.replicate 32 1, List.replicate 32 0], false⟩
    rfl (by decide) (by decide) (by decide)

/-! ### Nonce structure of the chunk loops -/

/-- Claim C8 (amended): frame `i` of the encrypt loop seals chunk `i`
with nonce `prefix ++ BE32(i mod 2^32)` — equal to `prefix ++ BE32(i)`
for every `i < 2^32` — and the decrypt loop `decFull` opens with the same
construction; nonces of chunks with indices below `2^32` are pairwise
distinct within one container, while the 32-bit counter wraps beyond
that bound. -/
theorem c8_nonce_structure (sl : List Nat → List Nat → List Nat) (pfx : List Nat)
    (bs : List Nat) (i j : Nat) (hi : i < 2 ^ 32) (hj : j < 2 ^ 32) (hij : i ≠ j) :
    (encLoop sl pfx bs.length 0 bs)[i]? =
      ((chunksOf chunkSizeConst bs)[i]?).map
        (fun c => sl (nonceFor pfx (i % 2 ^ 32)) c) ∧
    nonceFor pfx i ≠ nonceFor pfx j := by
  constructor
  · rw [encLoop_getElem sl pfx bs.length bs 0 i le_rfl (by omega)]
    rw [show (0 + i) % 2 ^ 32 = i % 2 ^ 32 from by omega]
  · intro h
    exact hij (be32_inj hi hj (List.append_cancel_left h))

set_option maxRecDepth 100000 in
/-- Witness for C8 (amended) at a concrete loop instance and index
pair. -/
theorem c8_nonce_structure_witness :
    (encLoop (demoKit.mkAES []).Seal (List.replicate 8 0) (List.length [5]) 0 [5])[0]? =
      ((chunksOf chunkSizeConst [5])[0]?).map
        (fun c => (demoKit.mkAES []).Seal
          (nonceFor (List.replicate 8 0) (0 % 2 ^ 32)) c) ∧
    nonceFor (List.replicate 8 0) 0 ≠ nonceFor (List.replicate 8 0) 1 :=
  c8_nonce_structure (demoKit.mkAES []).Seal (List.replicate 8 0) [5] 0 1
    (by decide) (by decide) (by decide)

set_option maxRecDepth 100000 in
/-- Counterexample to C8 as stated: in a container of `2^52 + 1` zero
bytes there are more than `2^32` chunks, the indices 0 and `2^32` name
distinct chunks, and the wrapped 32-bit counter hands both the same
nonce — the (key, nonce) pairs of distinct chunks are not pairwise
distinct. -/
theorem c8_counter_wrap_counterexample :
    2 ^ 32 < (chunksOf chunkSizeConst (List.replicate (2 ^ 52 + 1) 0)).length ∧
    (0 : Nat) ≠ 2 ^ 32 ∧
    nonceFor (List.replicate 8 0) (0 % 2 ^ 32) =
      nonceFor (List.replicate 8 0) (2 ^ 32 % 2 ^ 32) ∧
    nonceFor (List.replicate 8 0) 0 = nonceFor (List.replicate 8 0) (2 ^ 32) := by
  refine ⟨?_, by decide, by decide, ?_⟩
  · rw [chunksOf_length _ chunkSizeConst_pos, List.length_replicate]
    decide
  · rw [nonceFor, nonceFor, ← be32_mod (2 ^ 32)]
    decide

/-! ### The sidecar hash gate of the auto-decrypt pipeline -/

/-- Claim C9: when `decryptFileAuto` detects an archive and a sidecar
`archive_sha256` value exists, a SHA-256 mismatch on the decrypted bytes
fails with `HashMismatch`, extracts nothing and keeps the sidecar; the
sidecar is removed only after the hash verified and extraction
succeeded. -/
theorem c9_sidecar_hash_gate (kit : CipherKit) (pw container tmp : List Nat)
    (env : AutoEnv) (expected : List Nat)
    (hdec : decryptFile kit pw container = .ok tmp)
    (harch : env.isArch = true) (hmeta : env.metaHash = some expected) :
    (asciiEqFold (hexChars (sha256 tmp)) expected = false →
      decryptFileAuto kit pw container env =
        ⟨some .hashMismatch, false, false⟩) ∧
    ((decryptFileAuto kit pw container env).sidecarRemoved = true →
      asciiEqFold (hexChars (sha256 tmp)) expected = true ∧
      (decryptFileAuto kit pw container env).extracted = true) := by
  simp only [decryptFileAuto, hdec, harch, hmeta, if_true]
  constructor
  · intro hne
    simp [hne]
  · intro hrem
    rcases hh : asciiEqFold (hexChars (sha256 tmp)) expected with _ | _
    · rw [hh] at hrem
      simp at hrem
    · rcases hex : env.extractOk with _ | _
      · rw [hh, hex] at hrem
        simp at hrem
      · simp

set_option maxRecDepth 100000 in
set_option maxHeartbeats 1000000 in
/-- Witness for C9 at a concrete container (empty plaintext) and a sidecar
value that cannot match. -/
theorem c9_sidecar_hash_gate_witness :
    (asciiEqFold (hexChars (sha256 [])) [97] = false →
      decryptFileAuto demoKit [120]
        (headerBytes .aes256gcm (List.replicate 16 0) (List.replicate 8 0) 0)
        ⟨true, some [97], false⟩ = ⟨some .hashMismatch, false, false⟩) ∧
    ((decryptFileAuto demoKit [120]
        (headerBytes .aes256gcm (List.replicate 16 0) (List.replicate 8 0) 0)
        ⟨true, some [97], false⟩).sidecarRemoved = true →
      asciiEqFold (hexChars (sha256 [])) [97] = true ∧
      (decryptFileAuto demoKit [120]
        (headerBytes .aes256gcm (List.replicate 16 0) (List.replicate 8 0) 0)
        ⟨true, some [97], false⟩).extracted = true) :=
  c9_sidecar_hash_gate demoKit [120]
    (headerBytes .aes256gcm (List.replicate 16 0) (List.replicate 8 0) 0) []
    ⟨true, some [97], false⟩ [97] (by decide) rfl rfl
